import Mathlib

/-!
Verification of the `bkup` directory-reconciliation engine (`src/entry.rs`,
the revision carrying the timestamp-tolerance policy, together with the
reconciler `EntryDelta::clear`).

Modelling conventions:
* `std::time::Duration` values (modification timestamps and the tolerance)
  are modelled as `Nat` nanosecond counts.  Rust's `Duration` subtraction
  `a - b` aborts the process ("overflow when subtracting durations") when
  `b > a`; an aborting evaluation is modelled as `none` / `Err.overflowPanic`.
* Filesystem paths are lists of path components; `Path::file_name` is the
  last component (`List.getLast?`).
* A `DirEntry`'s `HashMap<PathBuf, Entry>` of children is modelled as an
  association list `List (String × Entry)`; the filesystem guarantees the
  keys are distinct, which theorems take as an explicit hypothesis where
  they need it.  The iteration order of the map is the list order; the
  functions below never depend on it beyond that.
* The metadata capability (`fs::metadata(..).modified()`) is modelled by
  storing the modification timestamp inside `FileEntry`, since an `Entry`
  tree is a read-only snapshot of the filesystem.
-/

/-- Result of a file comparison (`enum FileCmp` in `src/entry.rs`). -/
inductive FileCmp where
  | Same
  | Older
  | Newer
deriving DecidableEq, BEq, Repr

/-- Result of a directory comparison (`enum DirCmp` in `src/entry.rs`). -/
inductive DirCmp where
  | Same
  | Different
deriving DecidableEq, BEq, Repr

/-- `file_cmp_modified` from `src/entry.rs` (lines 424-446): compares the
source and destination modified times taking the accuracy into account.
`source`, `dest` and `accuracy` are `Duration`s modelled as `Nat`;
the Rust subtraction `source - *accuracy` (resp. `dest - *accuracy`)
panics when the accuracy exceeds the minuend, which is modelled by
returning `none`; in the non-panicking cases `Nat` subtraction agrees
with `Duration` subtraction exactly. -/
def file_cmp_modified (source dest accuracy : Nat) : Option FileCmp :=
  if dest < source then
    -- source may be newer
    if accuracy ≤ source then
      if dest < source - accuracy then some .Newer else some .Same
    else
      none
  else if source < dest then
    -- source may be older (dest may be newer)
    if accuracy ≤ dest then
      if source < dest - accuracy then some .Older else some .Same
    else
      none
  else
    some .Same

/-- C1 counterexample: at `t_s = 4`, `t_d = 1`, `tolerance = 9` the
difference is within the tolerance, so the claim requires the
classification `Same`; the code instead hits the panicking subtraction
`source - accuracy` and produces no classification at all. -/
theorem file_cmp_modified_tolerance_gt_source_no_same :
    file_cmp_modified 4 1 9 = none ∧ file_cmp_modified 4 1 9 ≠ some FileCmp.Same := by
  decide

/-- C1 (amended): provided the tolerance does not exceed the larger of the
two timestamps (otherwise the code panics instead of classifying), the
comparison classifies `Newer` iff `t_s > t_d ∧ t_s - tolerance > t_d`,
`Older` iff `t_d > t_s ∧ t_d - tolerance > t_s`, and `Same` in every
other case. -/
theorem file_cmp_modified_classification (s d a : Nat) (h : s ≠ d → a ≤ max s d) :
    (file_cmp_modified s d a = some FileCmp.Newer ↔ d < s ∧ d < s - a)
    ∧ (file_cmp_modified s d a = some FileCmp.Older ↔ s < d ∧ s < d - a)
    ∧ (file_cmp_modified s d a = some FileCmp.Same ↔
        ¬(d < s ∧ d < s - a) ∧ ¬(s < d ∧ s < d - a)) := by
  unfold file_cmp_modified
  rcases Nat.lt_trichotomy d s with hds | hds | hds
  · have ha : a ≤ s := le_trans (h (by omega)) (by simp [Nat.max_eq_left (le_of_lt hds)])
    by_cases hcut : d < s - a <;>
      simp [hds, Nat.not_lt.mpr (le_of_lt hds), ha, hcut]
  · simp [hds]
  · have ha : a ≤ d := le_trans (h (by omega)) (by simp [Nat.max_eq_right (le_of_lt hds)])
    by_cases hcut : s < d - a <;>
      simp [hds, Nat.not_lt.mpr (le_of_lt hds), Nat.lt_asymm hds, ha, hcut]

/-- C1 witness: the amended classification evaluated at
`t_s = 10`, `t_d = 1`, `tolerance = 2`. -/
theorem file_cmp_modified_classification_witness :
    (file_cmp_modified 10 1 2 = some FileCmp.Newer ↔ 1 < 10 ∧ 1 < 10 - 2)
    ∧ (file_cmp_modified 10 1 2 = some FileCmp.Older ↔ 10 < 1 ∧ 10 < 1 - 2)
    ∧ (file_cmp_modified 10 1 2 = some FileCmp.Same ↔
        ¬(1 < 10 ∧ 1 < 10 - 2) ∧ ¬(10 < 1 ∧ 10 < 1 - 2)) :=
  file_cmp_modified_classification 10 1 2 (by decide)

/-- C4 counterexample: at `t_s = 10`, `t_d = 1` the comparison with
tolerance `2` classifies `Newer`, but enlarging the tolerance to `11`
does not yield `Newer` or `Same` as the claim states: the code panics
on the subtraction `source - accuracy` and classifies nothing. -/
theorem file_cmp_modified_not_monotone :
    file_cmp_modified 10 1 2 = some FileCmp.Newer ∧ (2 : Nat) < 11
    ∧ file_cmp_modified 10 1 11 ≠ some FileCmp.Newer
    ∧ file_cmp_modified 10 1 11 ≠ some FileCmp.Same := by
  decide

/-- C4 (amended): enlarging the tolerance can only keep the classification
or turn it into `Same`, never flip its direction, provided the larger
tolerance still does not exceed the relevant timestamp (otherwise the
code panics instead of classifying). -/
theorem file_cmp_modified_tolerance_monotone (s d t1 t2 : Nat) (h12 : t1 < t2) :
    (file_cmp_modified s d t1 = some FileCmp.Newer → t2 ≤ s →
      file_cmp_modified s d t2 = some FileCmp.Newer
      ∨ file_cmp_modified s d t2 = some FileCmp.Same)
    ∧ (file_cmp_modified s d t1 = some FileCmp.Older → t2 ≤ d →
      file_cmp_modified s d t2 = some FileCmp.Older
      ∨ file_cmp_modified s d t2 = some FileCmp.Same) := by
  constructor
  · intro h1 h2
    have hfacts : d < s ∧ t1 ≤ s ∧ d < s - t1 := by
      unfold file_cmp_modified at h1
      split_ifs at h1 <;> simp_all
    obtain ⟨hds, ht1, hcut⟩ := hfacts
    unfold file_cmp_modified
    by_cases hc2 : d < s - t2 <;> simp [hds, h2, hc2]
  · intro h1 h2
    have hfacts : s < d ∧ t1 ≤ d ∧ s < d - t1 := by
      unfold file_cmp_modified at h1
      split_ifs at h1 <;> simp_all
    obtain ⟨hsd, ht1, hcut⟩ := hfacts
    have hnds : ¬ d < s := by omega
    unfold file_cmp_modified
    by_cases hc2 : s < d - t2 <;> simp [hnds, hsd, h2, hc2]

/-- C4 witness: monotonicity evaluated at `t_s = 10`, `t_d = 1`,
`tol1 = 2`, `tol2 = 3`. -/
theorem file_cmp_modified_tolerance_monotone_witness :
    ((file_cmp_modified 10 1 2 = some FileCmp.Newer → 3 ≤ 10 →
      file_cmp_modified 10 1 3 = some FileCmp.Newer
      ∨ file_cmp_modified 10 1 3 = some FileCmp.Same)
    ∧ (file_cmp_modified 10 1 2 = some FileCmp.Older → 3 ≤ 1 →
      file_cmp_modified 10 1 3 = some FileCmp.Older
      ∨ file_cmp_modified 10 1 3 = some FileCmp.Same)) :=
  file_cmp_modified_tolerance_monotone 10 1 2 3 (by decide)

/-- C10: the file comparison is not total: at `t_s = 3`, `t_d = 1`,
`tolerance = 5` the source is larger than the destination, so the code
evaluates the `Duration` subtraction `source - accuracy = 3 - 5`, which
underflows and panics (modelled as `none`). -/
theorem file_cmp_modified_underflow_panic :
    file_cmp_modified 3 1 5 = none := by
  decide

/-- A file entry (`struct FileEntry` in `src/entry.rs`): its path, plus the
modification timestamp that `FileEntry::cmp` reads through
`fs::metadata(path).modified().duration_since(UNIX_EPOCH)`, modelled as
part of the read-only snapshot. -/
structure FileEntry where
  path : List String
  mtime : Nat
deriving DecidableEq, Repr

/-- A filesystem entry (`enum Entry` / `struct DirEntry` in `src/entry.rs`):
a directory carries its path and the map from child file name to child
entry; a file is a leaf. -/
inductive Entry where
  | dir (path : List String) (entries : List (String × Entry))
  | file (f : FileEntry)

/-- The delta between a source and a destination file
(`struct FileDelta` in `src/entry.rs`). -/
structure FileDelta where
  source : FileEntry
  dest : FileEntry
  diff : FileCmp

/-- The delta between two entries (`enum EntryDelta` and `struct DirDelta`
in `src/entry.rs`): a directory delta carries the source and destination
directory entries, the aggregate comparison result, and the map of
per-child comparison results; `notFound` carries the source entry and the
path it would occupy in the destination. -/
inductive EntryDelta where
  | dir (source dest : Entry) (diff : DirCmp) (entries : List (String × EntryDelta))
  | file (delta : FileDelta)
  | notFound (entry : Entry) (path : List String)

/-- The errors the comparison can propagate, plus `overflowPanic`, which
models the process abort caused by the underflowing `Duration`
subtraction inside `file_cmp_modified`. -/
inductive Err where
  | mismatchedEntryTypes
  | invalidFilename
  | overflowPanic
deriving DecidableEq, Repr

/-- `Entry::path` (`src/entry.rs`). -/
def Entry.path : Entry → List String
  | .dir p _ => p
  | .file f => f.path

/-- `Entry::file_name` (`src/entry.rs`): the final component of the
entry's path, when there is one. -/
def Entry.fileName (e : Entry) : Option String :=
  e.path.getLast?

/-- The per-child check `DirEntry::cmp` performs to decide whether all
entries are the same (`src/entry.rs` lines 131-137): a directory delta
counts as same iff its aggregate result is `Same`, a file delta iff its
comparison is `Same`, and a `notFound` never does.  The same test also
implements `DirDelta::is_none` and `FileDelta::is_newer`-style
projections used by the reconciler. -/
def EntryDelta.isSame : EntryDelta → Bool
  | .dir _ _ diff _ => diff == DirCmp.Same
  | .file fd => fd.diff == FileCmp.Same
  | .notFound _ _ => false

/-- The child-delta map of a directory delta (`DirDelta::entries`). -/
def EntryDelta.childDeltas : EntryDelta → List (String × EntryDelta)
  | .dir _ _ _ ds => ds
  | _ => []

/-- The aggregate result of a directory delta (`DirDelta::diff`), if the
delta is a directory delta. -/
def EntryDelta.dirDiff : EntryDelta → Option DirCmp
  | .dir _ _ diff _ => some diff
  | _ => none

mutual

/-- `Entry::cmp` (`src/entry.rs` lines 393-413): directories are compared
by `DirEntry::cmp`, files by `FileEntry::cmp` (filename check, metadata
read, then `file_cmp_modified`), and comparing a file against a directory
is a hard error. -/
def Entry.cmp : Entry → Entry → Nat → Except Err EntryDelta
  | .dir p1 es1, .dir p2 es2, accuracy => do
    let (entries, isSame) ← cmpEntries accuracy p2 es2 es1
    let diff := if isSame then DirCmp.Same else DirCmp.Different
    .ok (.dir (.dir p1 es1) (.dir p2 es2) diff entries)
  | .file f1, .file f2, accuracy =>
    match f1.path.getLast?, f2.path.getLast? with
    | some _, some _ =>
      match file_cmp_modified f1.mtime f2.mtime accuracy with
      | some diff => .ok (.file ⟨f1, f2, diff⟩)
      | none => .error .overflowPanic
    | _, _ => .error .invalidFilename
  | _, _, _ => .error .mismatchedEntryTypes

/-- One iteration of the loop of `DirEntry::cmp` (`src/entry.rs` lines
115-128): the source child is looked up in the destination map; if
present it is compared recursively, otherwise the result is a `NotFound`
carrying the destination path `other.path.join(e1.file_name()?)` (where
a missing file name propagates as an error). -/
def cmpChild (accuracy : Nat) (destPath : List String)
    (destEntries : List (String × Entry)) (name : String) (e1 : Entry) :
    Except Err EntryDelta :=
  match List.lookup name destEntries with
  | some e2 => Entry.cmp e1 e2 accuracy
  | none =>
    match e1.fileName with
    | some fn => .ok (.notFound e1 (destPath ++ [fn]))
    | none => .error .invalidFilename

/-- The loop of `DirEntry::cmp` (`src/entry.rs` lines 110-147): every
comparison result is inserted into the delta map under the child's name,
and the `is_same` flag is the conjunction of the per-child same-checks
(`src/entry.rs` lines 130-139). -/
def cmpEntries (accuracy : Nat) (destPath : List String)
    (destEntries : List (String × Entry)) :
    List (String × Entry) → Except Err (List (String × EntryDelta) × Bool)
  | [] => .ok ([], true)
  | (name, e1) :: rest => do
    let res ← cmpChild accuracy destPath destEntries name e1
    let (entries, restSame) ← cmpEntries accuracy destPath destEntries rest
    .ok ((name, res) :: entries, res.isSame && restSame)

end

/-- The copy operations the reconciler issues against the filesystem:
`cp -p` of one file (`FileEntry::copy`, which preserves the modification
time and the permission bits) and `fs::create_dir` (`DirEntry::copy`). -/
inductive FsAction where
  | copyFile (source : FileEntry) (dest : List String)
  | createDir (dest : List String)
deriving DecidableEq, Repr

/-- `FileEntry::copy` (`src/entry.rs` lines 251-269): runs `cp -p source
dest`; modelled as emitting the corresponding copy action. -/
def FileEntry.copy (f : FileEntry) (dest : List String) : Except Err (List FsAction) :=
  .ok [FsAction.copyFile f dest]

mutual

/-- `Entry::copy` / `DirEntry::copy` (`src/entry.rs` lines 81-102 and
383-390): a directory copy creates the destination directory and
recursively copies every child to `dest.join(filename)`; a file copy is
`FileEntry::copy`. -/
def Entry.copy : Entry → List String → Except Err (List FsAction)
  | .file f, dest => f.copy dest
  | .dir _ es, dest => do
    let acts ← copyEntries es dest
    .ok (FsAction.createDir dest :: acts)

/-- The loop of `DirEntry::copy` over the child map. -/
def copyEntries : List (String × Entry) → List String → Except Err (List FsAction)
  | [], _ => .ok []
  | (name, e) :: rest, dest => do
    let a ← e.copy (dest ++ [name])
    let b ← copyEntries rest dest
    .ok (a ++ b)

end

mutual

/-- `EntryDelta::clear` (`src/entry.rs` lines 324-346): a directory delta
recurses into its recorded children unless it `is_none`; a file delta
copies the source over the destination path only when `is_newer`; a
`notFound` copies the carried source entry to the recorded path. -/
def EntryDelta.clear : EntryDelta → Except Err (List FsAction)
  | .dir _ _ diff ds =>
    if diff == DirCmp.Same then .ok []
    else clearEntries ds
  | .file fd =>
    if fd.diff == FileCmp.Newer then fd.source.copy fd.dest.path
    else .ok []
  | .notFound entry path => entry.copy path

/-- The loop of `EntryDelta::clear` over a directory delta's children. -/
def clearEntries : List (String × EntryDelta) → Except Err (List FsAction)
  | [] => .ok []
  | (_, d) :: rest => do
    let a ← d.clear
    let b ← clearEntries rest
    .ok (a ++ b)

end

/-- C6: the reconciler copies a file for a `FileDelta` node exactly when
the node is classified `Newer`; `Older` and `Same` nodes perform no
action, so the destination file is only ever overwritten by a strictly
newer source. -/
theorem clear_file_delta_copies_iff_newer (s d : FileEntry) (c : FileCmp) :
    EntryDelta.clear (.file ⟨s, d, c⟩) =
      .ok (if c == FileCmp.Newer then [FsAction.copyFile s d.path] else []) := by
  cases c <;> simp only [EntryDelta.clear, FileEntry.copy] <;> rfl

/-- Inversion for a successful monadic bind over `Except`. -/
theorem except_bind_ok {ε α β : Type} {x : Except ε α} {f : α → Except ε β} {b : β} :
    (x >>= f) = Except.ok b ↔ ∃ a, x = Except.ok a ∧ f a = Except.ok b := by
  cases x <;> simp [Bind.bind, Except.bind]

/-- Distinctness of the keys of an association list (the invariant the
filesystem provides for the `HashMap` of children of a directory). -/
def keysNodup {α : Type} : List (String × α) → Bool
  | [] => true
  | (n, _) :: t => !(t.any fun p => p.1 == n) && keysNodup t

theorem any_key_eq {α : Type} (l : List (String × α)) (n : String) :
    (l.any fun p => p.1 == n) = (l.map Prod.fst).any fun m => m == n := by
  induction l with
  | nil => rfl
  | cons hd t ih => simp only [List.any_cons, List.map_cons, ih]

theorem keysNodup_lookup {α : Type} {l : List (String × α)} {n : String} {b : α}
    (hnd : keysNodup l = true) (hm : (n, b) ∈ l) : List.lookup n l = some b := by
  induction l with
  | nil => cases hm
  | cons hd t ih =>
    obtain ⟨m, x⟩ := hd
    rw [keysNodup, Bool.and_eq_true] at hnd
    obtain ⟨hnot, hndt⟩ := hnd
    rcases List.mem_cons.mp hm with heq | ht
    · injection heq with h1 h2
      subst h1
      subst h2
      exact List.lookup_cons_self
    · have hne : (n == m) = false := by
        simp only [Bool.not_eq_true', List.any_eq_false] at hnot
        simpa using hnot (n, b) ht
      rw [List.lookup_cons, hne]
      exact ih hndt ht

theorem mem_of_lookup_eq_some {α : Type} {l : List (String × α)} {n : String} {b : α}
    (h : List.lookup n l = some b) : (n, b) ∈ l := by
  obtain ⟨l₁, l₂, rfl, _⟩ := List.lookup_eq_some_iff.mp h
  simp

theorem keysNodup_of_keys_eq {α β : Type} : ∀ {l1 : List (String × α)}
    {l2 : List (String × β)}, l1.map Prod.fst = l2.map Prod.fst →
    keysNodup l1 = keysNodup l2 := by
  intro l1
  induction l1 with
  | nil =>
    intro l2 h
    cases l2 with
    | nil => rfl
    | cons hd2 t2 => simp at h
  | cons hd t ih =>
    obtain ⟨m, x⟩ := hd
    intro l2 h
    cases l2 with
    | nil => simp at h
    | cons hd2 t2 =>
      obtain ⟨m2, y⟩ := hd2
      simp only [List.map_cons, List.cons.injEq] at h
      obtain ⟨rfl, hkeys⟩ := h
      rw [keysNodup, keysNodup, any_key_eq, any_key_eq, hkeys, ih hkeys]

mutual

/-- Well-formedness of a snapshot tree, as the Tree Builder
(`DirEntry::visit`) guarantees it: every file has a nonempty path (its
file name exists), and in every directory the child map's keys are
distinct (a `HashMap` invariant) and each child is stored under its own
file name (`visit` inserts each child under `path.file_name()`). -/
def Entry.wf : Entry → Bool
  | .file f => !f.path.isEmpty
  | .dir _ es => keysNodup es && wfEntries es

/-- Well-formedness of a directory's child map. -/
def wfEntries : List (String × Entry) → Bool
  | [] => true
  | (n, e) :: t => (e.fileName == some n) && e.wf && wfEntries t

end

theorem wfEntries_mem {es : List (String × Entry)} {n : String} {e : Entry}
    (hwf : wfEntries es = true) (hm : (n, e) ∈ es) :
    e.fileName = some n ∧ e.wf = true := by
  induction es with
  | nil => cases hm
  | cons hd t ih =>
    obtain ⟨m, x⟩ := hd
    simp only [wfEntries, Bool.and_eq_true] at hwf
    obtain ⟨⟨hfn, hwfx⟩, hwft⟩ := hwf
    rcases List.mem_cons.mp hm with heq | ht
    · injection heq with h1 h2
      subst h1
      subst h2
      exact ⟨by simpa using hfn, hwfx⟩
    · exact ih hwft ht

theorem sizeOf_lt_of_mem_entries {es : List (String × Entry)} {n : String} {e : Entry}
    (hm : (n, e) ∈ es) (p : List String) : sizeOf e < sizeOf (Entry.dir p es) := by
  have h1 := List.sizeOf_lt_of_mem hm
  have h2 : sizeOf (Entry.dir p es) = 1 + sizeOf p + sizeOf es := by simp
  have h3 : sizeOf (n, e) = 1 + sizeOf n + sizeOf e := by simp
  omega

theorem cmp_file_dir (f : FileEntry) (p : List String)
    (es : List (String × Entry)) (acc : Nat) :
    Entry.cmp (.file f) (.dir p es) acc = .error .mismatchedEntryTypes := by
  simp [Entry.cmp]

theorem cmp_dir_file (p : List String) (es : List (String × Entry))
    (f : FileEntry) (acc : Nat) :
    Entry.cmp (.dir p es) (.file f) acc = .error .mismatchedEntryTypes := by
  simp [Entry.cmp]

theorem cmp_dir_ok_iff {p1 : List String} {es1 : List (String × Entry)}
    {p2 : List String} {es2 : List (String × Entry)} {acc : Nat} {d : EntryDelta} :
    Entry.cmp (.dir p1 es1) (.dir p2 es2) acc = .ok d ↔
    ∃ ds b, cmpEntries acc p2 es2 es1 = .ok (ds, b)
      ∧ d = .dir (.dir p1 es1) (.dir p2 es2)
          (if b then DirCmp.Same else DirCmp.Different) ds := by
  simp only [Entry.cmp]
  constructor
  · intro h
    rcases except_bind_ok.mp h with ⟨a, ha, hb⟩
    obtain ⟨ds, b⟩ := a
    simp only [Except.ok.injEq] at hb
    exact ⟨ds, b, ha, hb.symm⟩
  · rintro ⟨ds, b, ha, rfl⟩
    rw [ha]
    rfl

theorem cmp_file_ok_iff {f1 f2 : FileEntry} {acc : Nat} {d : EntryDelta} :
    Entry.cmp (.file f1) (.file f2) acc = .ok d ↔
    ∃ c, (f1.path.getLast?).isSome ∧ (f2.path.getLast?).isSome
      ∧ file_cmp_modified f1.mtime f2.mtime acc = some c
      ∧ d = .file ⟨f1, f2, c⟩ := by
  simp only [Entry.cmp]
  cases h1 : f1.path.getLast? <;> cases h2 : f2.path.getLast? <;> simp
  cases hc : file_cmp_modified f1.mtime f2.mtime acc <;> simp [eq_comm]

theorem cmpEntries_nil {acc : Nat} {p2 : List String} {es2 : List (String × Entry)} :
    cmpEntries acc p2 es2 [] = .ok ([], true) := by
  simp [cmpEntries]

theorem cmpEntries_cons_ok {acc : Nat} {p2 : List String} {es2 : List (String × Entry)}
    {name : String} {e1 : Entry} {rest : List (String × Entry)}
    {ds : List (String × EntryDelta)} {b : Bool} :
    cmpEntries acc p2 es2 ((name, e1) :: rest) = .ok (ds, b) ↔
    ∃ r ds2 b2, cmpChild acc p2 es2 name e1 = .ok r
      ∧ cmpEntries acc p2 es2 rest = .ok (ds2, b2)
      ∧ ds = (name, r) :: ds2 ∧ b = (r.isSame && b2) := by
  simp only [cmpEntries]
  constructor
  · intro h
    rcases except_bind_ok.mp h with ⟨r, hr, h2⟩
    rcases except_bind_ok.mp h2 with ⟨a, ha, h3⟩
    obtain ⟨ds2, b2⟩ := a
    simp only [Except.ok.injEq, Prod.mk.injEq] at h3
    exact ⟨r, ds2, b2, hr, ha, h3.1.symm, h3.2.symm⟩
  · rintro ⟨r, ds2, b2, hr, ha, rfl, rfl⟩
    simp [hr, ha, Bind.bind, Except.bind]

theorem cmpChild_found {acc : Nat} {p2 : List String} {es2 : List (String × Entry)}
    {n : String} {e1 e2 : Entry} (hsome : List.lookup n es2 = some e2) :
    cmpChild acc p2 es2 n e1 = Entry.cmp e1 e2 acc := by
  simp [cmpChild, hsome]

theorem cmpChild_not_found {acc : Nat} {p2 : List String} {es2 : List (String × Entry)}
    {n : String} {e1 : Entry} (hn : List.lookup n es2 = none)
    {fn : String} (hfn : e1.fileName = some fn) :
    cmpChild acc p2 es2 n e1 = .ok (.notFound e1 (p2 ++ [fn])) := by
  simp [cmpChild, hn, hfn]

theorem cmpEntries_keys {acc : Nat} {p2 : List String} {es2 : List (String × Entry)} :
    ∀ {l : List (String × Entry)} {ds : List (String × EntryDelta)} {b : Bool},
    cmpEntries acc p2 es2 l = .ok (ds, b) → ds.map Prod.fst = l.map Prod.fst := by
  intro l
  induction l with
  | nil =>
    intro ds b h
    rw [cmpEntries_nil] at h
    simp only [Except.ok.injEq, Prod.mk.injEq] at h
    rw [← h.1]
    rfl
  | cons hd t ih =>
    obtain ⟨name, e1⟩ := hd
    intro ds b h
    rcases cmpEntries_cons_ok.mp h with ⟨r, ds2, b2, hr, ha, rfl, rfl⟩
    simp [ih ha]

theorem cmpEntries_allSame {acc : Nat} {p2 : List String} {es2 : List (String × Entry)} :
    ∀ {l : List (String × Entry)} {ds : List (String × EntryDelta)} {b : Bool},
    cmpEntries acc p2 es2 l = .ok (ds, b) → b = ds.all fun p => p.2.isSame := by
  intro l
  induction l with
  | nil =>
    intro ds b h
    rw [cmpEntries_nil] at h
    simp only [Except.ok.injEq, Prod.mk.injEq] at h
    rw [← h.1, ← h.2]
    rfl
  | cons hd t ih =>
    obtain ⟨name, e1⟩ := hd
    intro ds b h
    rcases cmpEntries_cons_ok.mp h with ⟨r, ds2, b2, hr, ha, rfl, rfl⟩
    simp [List.all_cons, ih ha]

theorem cmpEntries_child_ok {acc : Nat} {p2 : List String} {es2 : List (String × Entry)} :
    ∀ {l : List (String × Entry)} {ds : List (String × EntryDelta)} {b : Bool},
    cmpEntries acc p2 es2 l = .ok (ds, b) →
    ∀ {n : String} {e1 : Entry}, (n, e1) ∈ l →
    ∃ r, cmpChild acc p2 es2 n e1 = .ok r := by
  intro l
  induction l with
  | nil =>
    intro ds b _ n e1 hm
    cases hm
  | cons hd t ih =>
    obtain ⟨name, x⟩ := hd
    intro ds b h n e1 hm
    rcases cmpEntries_cons_ok.mp h with ⟨r, ds2, b2, hr, ha, rfl, rfl⟩
    rcases List.mem_cons.mp hm with heq | ht
    · injection heq with h1 h2
      subst h1
      subst h2
      exact ⟨r, hr⟩
    · exact ih ha ht

theorem cmpEntries_lookup {acc : Nat} {p2 : List String} {es2 : List (String × Entry)} :
    ∀ {l : List (String × Entry)} {ds : List (String × EntryDelta)} {b : Bool},
    cmpEntries acc p2 es2 l = .ok (ds, b) → keysNodup l = true →
    ∀ {n : String} {e1 : Entry}, (n, e1) ∈ l →
    ∃ r, cmpChild acc p2 es2 n e1 = .ok r ∧ List.lookup n ds = some r := by
  intro l
  induction l with
  | nil =>
    intro ds b _ _ n e1 hm
    cases hm
  | cons hd t ih =>
    obtain ⟨name, x⟩ := hd
    intro ds b h hnd n e1 hm
    rw [keysNodup, Bool.and_eq_true] at hnd
    obtain ⟨hnot, hndt⟩ := hnd
    rcases cmpEntries_cons_ok.mp h with ⟨r, ds2, b2, hr, ha, rfl, rfl⟩
    rcases List.mem_cons.mp hm with heq | ht
    · injection heq with h1 h2
      subst h1
      subst h2
      exact ⟨r, hr, List.lookup_cons_self⟩
    · have hne : (n == name) = false := by
        simp only [Bool.not_eq_true', List.any_eq_false] at hnot
        simpa using hnot (n, e1) ht
      obtain ⟨r2, hr2, hl2⟩ := ih ha hndt ht
      refine ⟨r2, hr2, ?_⟩
      rw [List.lookup_cons, hne]
      exact hl2

theorem cmpEntries_lookup_none {acc : Nat} {p2 : List String}
    {es2 : List (String × Entry)} {l : List (String × Entry)}
    {ds : List (String × EntryDelta)} {b : Bool} {n : String}
    (h : cmpEntries acc p2 es2 l = .ok (ds, b))
    (hn : List.lookup n l = none) : List.lookup n ds = none := by
  have hk := cmpEntries_keys h
  rw [List.lookup_eq_none_iff] at hn ⊢
  intro p hp
  have hmem : p.1 ∈ List.map Prod.fst ds := List.mem_map.mpr ⟨p, hp, rfl⟩
  rw [hk] at hmem
  obtain ⟨q, hq, hq1⟩ := List.mem_map.mp hmem
  have := hn q hq
  rwa [hq1] at this

/-- C2 counterexample: comparing a source directory and a destination
directory that each hold the file `f` with equal modification times (so
the child comparison is `Same`) yields an aggregate status `Same`, yet
the child-delta map still records that `Same` child: it has one entry,
not zero, so the map is not restricted to non-`Same` children and
`Same` does not coincide with emptiness of the map. -/
theorem cmpEval_same_pair :
    Entry.cmp (.dir ["s"] [("f", .file ⟨["s", "f"], 5⟩)])
        (.dir ["d"] [("f", .file ⟨["d", "f"], 5⟩)]) 0
      = .ok (.dir (.dir ["s"] [("f", .file ⟨["s", "f"], 5⟩)])
          (.dir ["d"] [("f", .file ⟨["d", "f"], 5⟩)]) DirCmp.Same
          [("f", .file ⟨⟨["s", "f"], 5⟩, ⟨["d", "f"], 5⟩, FileCmp.Same⟩)]) := by
  have h1 : Entry.cmp (.file ⟨["s", "f"], 5⟩) (.file ⟨["d", "f"], 5⟩) 0
      = .ok (.file ⟨⟨["s", "f"], 5⟩, ⟨["d", "f"], 5⟩, FileCmp.Same⟩) :=
    cmp_file_ok_iff.mpr ⟨.Same, by rfl, by rfl, by rfl, rfl⟩
  have h2 : cmpEntries 0 ["d"] [("f", .file ⟨["d", "f"], 5⟩)]
        [("f", .file ⟨["s", "f"], 5⟩)]
      = .ok ([("f", .file ⟨⟨["s", "f"], 5⟩, ⟨["d", "f"], 5⟩, FileCmp.Same⟩)], true) :=
    cmpEntries_cons_ok.mpr ⟨_, [], true,
      by rw [cmpChild_found (by rfl)]; exact h1, cmpEntries_nil, rfl, rfl⟩
  exact cmp_dir_ok_iff.mpr ⟨_, true, h2, rfl⟩

theorem dir_cmp_same_with_recorded_child :
    (Entry.cmp (.dir ["s"] [("f", .file ⟨["s", "f"], 5⟩)])
        (.dir ["d"] [("f", .file ⟨["d", "f"], 5⟩)]) 0).map
      (fun d => (d.dirDiff, d.childDeltas.length,
        d.childDeltas.all fun p => p.2.isSame))
      = .ok (some DirCmp.Same, 1, true) := by
  rw [cmpEval_same_pair]
  rfl

/-- C2 (amended): the child-delta map produced by a directory comparison
records the comparison result of every source child, including the
`Same` ones; the directory's aggregate status is `Same` iff every
recorded child delta is `Same`. -/
theorem dir_cmp_records_all_children {p1 p2 : List String}
    {es1 es2 : List (String × Entry)} {acc : Nat} {d : EntryDelta}
    (h : Entry.cmp (.dir p1 es1) (.dir p2 es2) acc = .ok d) :
    ∃ ds diff, d = .dir (.dir p1 es1) (.dir p2 es2) diff ds
      ∧ ds.map Prod.fst = es1.map Prod.fst
      ∧ (diff = DirCmp.Same ↔ ds.all (fun p => p.2.isSame) = true) := by
  rcases cmp_dir_ok_iff.mp h with ⟨ds, b, hce, rfl⟩
  refine ⟨ds, _, rfl, cmpEntries_keys hce, ?_⟩
  have hb := cmpEntries_allSame hce
  rw [← hb]
  cases b <;> simp

/-- C2 witness: the amended statement evaluated on one-file directories
with equal modification times. -/
theorem dir_cmp_records_all_children_witness :
    ∃ ds diff,
      (EntryDelta.dir (.dir ["s"] [("f", .file ⟨["s", "f"], 5⟩)])
          (.dir ["d"] [("f", .file ⟨["d", "f"], 5⟩)]) DirCmp.Same
          [("f", .file ⟨⟨["s", "f"], 5⟩, ⟨["d", "f"], 5⟩, FileCmp.Same⟩)])
        = .dir (.dir ["s"] [("f", .file ⟨["s", "f"], 5⟩)])
            (.dir ["d"] [("f", .file ⟨["d", "f"], 5⟩)]) diff ds
      ∧ ds.map Prod.fst = [("f", Entry.file ⟨["s", "f"], 5⟩)].map Prod.fst
      ∧ (diff = DirCmp.Same ↔ ds.all (fun p => p.2.isSame) = true) :=
  @dir_cmp_records_all_children ["s"] ["d"]
    [("f", .file ⟨["s", "f"], 5⟩)] [("f", .file ⟨["d", "f"], 5⟩)] 0
    (.dir (.dir ["s"] [("f", .file ⟨["s", "f"], 5⟩)])
      (.dir ["d"] [("f", .file ⟨["d", "f"], 5⟩)]) DirCmp.Same
      [("f", .file ⟨⟨["s", "f"], 5⟩, ⟨["d", "f"], 5⟩, FileCmp.Same⟩)])
    cmpEval_same_pair

/-- C5: the comparison is strictly source-to-destination.  If the child
name `f` is present in the source map and absent from the destination
map, then a successful comparison records a `NotFound` for `f`, while
the comparison in the swapped direction records no delta entry at all
for any name missing from its own source (in particular for `f`). -/
theorem dir_cmp_asymmetry {acc : Nat} {p1 p2 : List String}
    {es1 es2 : List (String × Entry)} {f : String} {ef : Entry}
    (hnd : keysNodup es1 = true)
    (hsrc : List.lookup f es1 = some ef)
    (hdst : List.lookup f es2 = none) :
    (∀ d, Entry.cmp (.dir p1 es1) (.dir p2 es2) acc = .ok d →
      ∃ e p, List.lookup f d.childDeltas = some (.notFound e p))
    ∧ (∀ d n, Entry.cmp (.dir p2 es2) (.dir p1 es1) acc = .ok d →
      List.lookup n es2 = none → List.lookup n d.childDeltas = none) := by
  constructor
  · intro d h
    rcases cmp_dir_ok_iff.mp h with ⟨ds, b, hce, rfl⟩
    obtain ⟨r, hr, hl⟩ := cmpEntries_lookup hce hnd (mem_of_lookup_eq_some hsrc)
    cases hfn : ef.fileName with
    | none =>
      rw [cmpChild] at hr
      rw [hdst, hfn] at hr
      cases hr
    | some fn =>
      rw [cmpChild_not_found hdst hfn] at hr
      obtain rfl : EntryDelta.notFound ef (p2 ++ [fn]) = r := by
        injection hr
      exact ⟨ef, p2 ++ [fn], hl⟩
  · intro d n h hn
    rcases cmp_dir_ok_iff.mp h with ⟨ds, b, hce, rfl⟩
    exact cmpEntries_lookup_none hce hn

/-- C5 witness: asymmetry evaluated on a source holding only the file `f`
and an empty destination. -/
theorem dir_cmp_asymmetry_witness :
    (∀ d, Entry.cmp (.dir ["a"] [("f", .file ⟨["a", "f"], 7⟩)]) (.dir ["b"] []) 2 = .ok d →
      ∃ e p, List.lookup "f" d.childDeltas = some (.notFound e p))
    ∧ (∀ d n, Entry.cmp (.dir ["b"] []) (.dir ["a"] [("f", .file ⟨["a", "f"], 7⟩)]) 2 = .ok d →
      List.lookup n ([] : List (String × Entry)) = none →
      List.lookup n d.childDeltas = none) :=
  dir_cmp_asymmetry (by rfl) (by rfl) (by rfl)

/-- C9: a source child absent from the destination produces a `NotFound`
delta recorded under the child's name, carrying the entire source
sub-entry itself together with the destination path obtained by joining
the destination directory's path with the child's file name. -/
theorem dir_cmp_not_found_payload {acc : Nat} {p1 p2 : List String}
    {es1 es2 : List (String × Entry)} {d : EntryDelta}
    (hnd : keysNodup es1 = true)
    (h : Entry.cmp (.dir p1 es1) (.dir p2 es2) acc = .ok d)
    {n : String} {e1 : Entry} (hsrc : (n, e1) ∈ es1)
    (hdst : List.lookup n es2 = none) :
    ∃ fn, e1.fileName = some fn
      ∧ List.lookup n d.childDeltas = some (.notFound e1 (p2 ++ [fn])) := by
  rcases cmp_dir_ok_iff.mp h with ⟨ds, b, hce, rfl⟩
  obtain ⟨r, hr, hl⟩ := cmpEntries_lookup hce hnd hsrc
  cases hfn : e1.fileName with
  | none =>
    rw [cmpChild] at hr
    rw [hdst, hfn] at hr
    cases hr
  | some fn =>
    rw [cmpChild_not_found hdst hfn] at hr
    obtain rfl : EntryDelta.notFound e1 (p2 ++ [fn]) = r := by
      injection hr
    exact ⟨fn, rfl, hl⟩

/-- C9 witness: the `NotFound` payload evaluated on a source holding the
subtree `sub/g` and an empty destination. -/
theorem cmpEval_sub_missing :
    Entry.cmp (.dir ["a"] [("sub", .dir ["a", "sub"] [("g", .file ⟨["a", "sub", "g"], 3⟩)])])
        (.dir ["b"] []) 7
      = .ok (.dir
          (.dir ["a"] [("sub", .dir ["a", "sub"] [("g", .file ⟨["a", "sub", "g"], 3⟩)])])
          (.dir ["b"] []) DirCmp.Different
          [("sub", .notFound (.dir ["a", "sub"] [("g", .file ⟨["a", "sub", "g"], 3⟩)])
            ["b", "sub"])]) := by
  have hnf : List.lookup "sub" ([] : List (String × Entry)) = none := rfl
  have hfn : (Entry.dir ["a", "sub"] [("g", .file ⟨["a", "sub", "g"], 3⟩)]).fileName
      = some "sub" := rfl
  have h2 : cmpEntries 7 ["b"] []
        [("sub", .dir ["a", "sub"] [("g", .file ⟨["a", "sub", "g"], 3⟩)])]
      = .ok ([("sub", .notFound (.dir ["a", "sub"] [("g", .file ⟨["a", "sub", "g"], 3⟩)])
          ["b", "sub"])], false) :=
    cmpEntries_cons_ok.mpr ⟨_, [], true,
      by rw [cmpChild_not_found hnf hfn]; rfl, cmpEntries_nil, rfl, rfl⟩
  exact cmp_dir_ok_iff.mpr ⟨_, false, h2, rfl⟩

theorem dir_cmp_not_found_payload_witness :
    ∃ fn, (Entry.dir ["a", "sub"] [("g", .file ⟨["a", "sub", "g"], 3⟩)]).fileName = some fn
      ∧ List.lookup "sub"
          (EntryDelta.childDeltas (.dir
            (.dir ["a"] [("sub", .dir ["a", "sub"] [("g", .file ⟨["a", "sub", "g"], 3⟩)])])
            (.dir ["b"] []) DirCmp.Different
            [("sub", .notFound (.dir ["a", "sub"] [("g", .file ⟨["a", "sub", "g"], 3⟩)])
              ["b", "sub"])]))
          = some (.notFound (.dir ["a", "sub"] [("g", .file ⟨["a", "sub", "g"], 3⟩)])
              (["b"] ++ [fn])) :=
  @dir_cmp_not_found_payload 7 ["a"] ["b"]
    [("sub", .dir ["a", "sub"] [("g", .file ⟨["a", "sub", "g"], 3⟩)])] []
    (.dir (.dir ["a"] [("sub", .dir ["a", "sub"] [("g", .file ⟨["a", "sub", "g"], 3⟩)])])
      (.dir ["b"] []) DirCmp.Different
      [("sub", .notFound (.dir ["a", "sub"] [("g", .file ⟨["a", "sub", "g"], 3⟩)]) ["b", "sub"])])
    (by rfl)
    cmpEval_sub_missing
    "sub" (.dir ["a", "sub"] [("g", .file ⟨["a", "sub", "g"], 3⟩)])
    (by simp) (by rfl)

/-- C8: comparing a file entry against a directory entry (in either
order) is a hard `MismatchedEntryTypes` error, and consequently a
directory comparison in which some child name maps to a file on one
side and a directory on the other fails as a whole with an error
instead of producing a delta. -/
theorem entry_cmp_mismatch_errors :
    (∀ (f : FileEntry) (p : List String) (es : List (String × Entry)) (acc : Nat),
      Entry.cmp (.file f) (.dir p es) acc = .error .mismatchedEntryTypes
      ∧ Entry.cmp (.dir p es) (.file f) acc = .error .mismatchedEntryTypes)
    ∧ (∀ (acc : Nat) (p1 : List String) (es1 : List (String × Entry))
        (p2 : List String) (es2 : List (String × Entry)) (n : String)
        (fx : FileEntry) (px : List String) (esx : List (String × Entry)),
      List.lookup n es1 = some (.file fx) → List.lookup n es2 = some (.dir px esx) →
      ∃ err, Entry.cmp (.dir p1 es1) (.dir p2 es2) acc = .error err)
    ∧ (∀ (acc : Nat) (p1 : List String) (es1 : List (String × Entry))
        (p2 : List String) (es2 : List (String × Entry)) (n : String)
        (px : List String) (esx : List (String × Entry)) (fx : FileEntry),
      List.lookup n es1 = some (.dir px esx) → List.lookup n es2 = some (.file fx) →
      ∃ err, Entry.cmp (.dir p1 es1) (.dir p2 es2) acc = .error err) := by
  refine ⟨fun f p es acc => ⟨cmp_file_dir f p es acc, cmp_dir_file p es f acc⟩, ?_, ?_⟩
  · intro acc p1 es1 p2 es2 n fx px esx h1 h2
    cases hres : Entry.cmp (.dir p1 es1) (.dir p2 es2) acc with
    | error err => exact ⟨err, rfl⟩
    | ok d =>
      exfalso
      rcases cmp_dir_ok_iff.mp hres with ⟨ds, b, hce, rfl⟩
      obtain ⟨r, hr⟩ := cmpEntries_child_ok hce (mem_of_lookup_eq_some h1)
      rw [cmpChild_found h2, cmp_file_dir] at hr
      cases hr
  · intro acc p1 es1 p2 es2 n px esx fx h1 h2
    cases hres : Entry.cmp (.dir p1 es1) (.dir p2 es2) acc with
    | error err => exact ⟨err, rfl⟩
    | ok d =>
      exfalso
      rcases cmp_dir_ok_iff.mp hres with ⟨ds, b, hce, rfl⟩
      obtain ⟨r, hr⟩ := cmpEntries_child_ok hce (mem_of_lookup_eq_some h1)
      rw [cmpChild_found h2, cmp_dir_file] at hr
      cases hr

/-- C8 witness: a source whose child `x` is a file compared against a
destination whose child `x` is a directory fails as a whole. -/
theorem entry_cmp_mismatch_errors_witness :
    ∃ err, Entry.cmp (.dir ["a"] [("x", .file ⟨["a", "x"], 1⟩)])
        (.dir ["b"] [("x", .dir ["b", "x"] [])]) 0 = .error err :=
  entry_cmp_mismatch_errors.2.1 0 ["a"] [("x", .file ⟨["a", "x"], 1⟩)]
    ["b"] [("x", .dir ["b", "x"] [])] "x" ⟨["a", "x"], 1⟩ ["b", "x"] []
    (by rfl) (by rfl)

theorem cmp_self_aux : ∀ (k : Nat) (e : Entry), sizeOf e ≤ k → e.wf = true →
    ∀ acc : Nat, ∃ d, Entry.cmp e e acc = .ok d ∧ d.isSame = true := by
  intro k
  induction k with
  | zero =>
    intro e hk
    exfalso
    cases e <;> simp_arith at hk
  | succ k ih =>
    intro e hk hwf acc
    cases e with
    | file f =>
      simp only [Entry.wf] at hwf
      have hne : f.path ≠ [] := by simpa using hwf
      obtain ⟨fn, hfn⟩ : ∃ fn, f.path.getLast? = some fn := by
        cases hlast : f.path.getLast? with
        | none => exact absurd (List.getLast?_eq_none_iff.mp hlast) hne
        | some fn => exact ⟨fn, rfl⟩
      refine ⟨.file ⟨f, f, .Same⟩, ?_, rfl⟩
      apply cmp_file_ok_iff.mpr
      refine ⟨.Same, by simp [hfn], by simp [hfn], ?_, rfl⟩
      unfold file_cmp_modified
      simp
    | dir p es =>
      simp only [Entry.wf, Bool.and_eq_true] at hwf
      obtain ⟨hnd, hwfes⟩ := hwf
      have hgo : ∀ l : List (String × Entry), (∀ pr ∈ l, pr ∈ es) →
          ∃ ds, cmpEntries acc p es l = .ok (ds, true) := by
        intro l
        induction l with
        | nil => exact fun _ => ⟨[], cmpEntries_nil⟩
        | cons hd t iht =>
          obtain ⟨n, e1⟩ := hd
          intro hsub
          have hmem : (n, e1) ∈ es := hsub _ (List.mem_cons_self ..)
          have hlook : List.lookup n es = some e1 := keysNodup_lookup hnd hmem
          obtain ⟨hfn, hwf1⟩ := wfEntries_mem hwfes hmem
          have hsz : sizeOf e1 ≤ k := by
            have := sizeOf_lt_of_mem_entries hmem p
            omega
          obtain ⟨d1, hd1, hs1⟩ := ih e1 hsz hwf1 acc
          obtain ⟨ds2, hds2⟩ := iht fun pr hpr => hsub pr (List.mem_cons_of_mem _ hpr)
          refine ⟨(n, d1) :: ds2, ?_⟩
          apply cmpEntries_cons_ok.mpr
          refine ⟨d1, ds2, true, ?_, hds2, rfl, ?_⟩
          · rw [cmpChild_found hlook]
            exact hd1
          · rw [hs1]
            rfl
      obtain ⟨ds, hds⟩ := hgo es fun _ h => h
      refine ⟨.dir (.dir p es) (.dir p es) DirCmp.Same ds, ?_, rfl⟩
      apply cmp_dir_ok_iff.mpr
      exact ⟨ds, true, hds, by simp⟩

/-- C3 counterexample: for the tree `T` consisting of a root directory
with one file, `diff(T, T, 2)` has aggregate status `Same` as the claim
states, but its child-delta map is not empty: it records the (Same)
comparison of the single child. -/
theorem cmp_self_nonempty_map :
    (Entry.cmp (.dir ["r"] [("f", .file ⟨["r", "f"], 5⟩)])
        (.dir ["r"] [("f", .file ⟨["r", "f"], 5⟩)]) 2).map
      (fun d => (d.dirDiff, d.childDeltas.length)) = .ok (some DirCmp.Same, 1) := by
  have h1 : Entry.cmp (.file ⟨["r", "f"], 5⟩) (.file ⟨["r", "f"], 5⟩) 2
      = .ok (.file ⟨⟨["r", "f"], 5⟩, ⟨["r", "f"], 5⟩, FileCmp.Same⟩) :=
    cmp_file_ok_iff.mpr ⟨.Same, by rfl, by rfl, by rfl, rfl⟩
  have h2 : cmpEntries 2 ["r"] [("f", .file ⟨["r", "f"], 5⟩)]
        [("f", .file ⟨["r", "f"], 5⟩)]
      = .ok ([("f", .file ⟨⟨["r", "f"], 5⟩, ⟨["r", "f"], 5⟩, FileCmp.Same⟩)], true) :=
    cmpEntries_cons_ok.mpr ⟨_, [], true,
      by rw [cmpChild_found (by rfl)]; exact h1, cmpEntries_nil, rfl, rfl⟩
  rw [cmp_dir_ok_iff.mpr ⟨_, true, h2, rfl⟩]
  rfl

/-- C3 (amended): comparing a well-formed tree against itself succeeds
with aggregate status `Same` for every tolerance; the resulting
child-delta map records one entry per child of the root (each of them
`Same`) rather than being empty. -/
theorem cmp_self_same (e : Entry) (acc : Nat) (hwf : e.wf = true) :
    ∃ d, Entry.cmp e e acc = .ok d ∧ d.isSame = true
      ∧ ∀ p es, e = .dir p es → d.childDeltas.map Prod.fst = es.map Prod.fst := by
  obtain ⟨d, hd, hs⟩ := cmp_self_aux (sizeOf e) e le_rfl hwf acc
  refine ⟨d, hd, hs, ?_⟩
  rintro p es rfl
  rcases cmp_dir_ok_iff.mp hd with ⟨ds, b, hce, rfl⟩
  simp [EntryDelta.childDeltas, cmpEntries_keys hce]

/-- C3 witness: reflexivity evaluated on a root directory holding one
file. -/
theorem cmp_self_same_witness :
    ∃ d, Entry.cmp (.dir ["r"] [("g", .file ⟨["r", "g"], 4⟩)])
        (.dir ["r"] [("g", .file ⟨["r", "g"], 4⟩)]) 3 = .ok d
      ∧ d.isSame = true
      ∧ ∀ p es, (Entry.dir ["r"] [("g", .file ⟨["r", "g"], 4⟩)]) = .dir p es →
          d.childDeltas.map Prod.fst = es.map Prod.fst :=
  cmp_self_same _ 3 (by
    simp only [Entry.wf, wfEntries]
    rfl)

instance : LawfulBEq FileCmp where
  eq_of_beq := by intro a b h; cases a <;> cases b <;> first | rfl | cases h
  rfl := by intro a; cases a <;> rfl

instance : LawfulBEq DirCmp where
  eq_of_beq := by intro a b h; cases a <;> cases b <;> first | rfl | cases h
  rfl := by intro a; cases a <;> rfl

mutual

/-- The entry that reappears at `dest` when the reconciler copies a
source entry there and the destination is scanned again: `Entry::copy`
places every child at `dest.join(filename)` and the file copy `cp -p`
preserves the modification time, so the copy is the source tree rebased
onto the destination path with identical timestamps. -/
def rebase : Entry → List String → Entry
  | .file f, dest => .file ⟨dest, f.mtime⟩
  | .dir _ es, dest => .dir dest (rebaseChildren es dest)

/-- The children recreated by a recursive `DirEntry::copy`. -/
def rebaseChildren : List (String × Entry) → List String → List (String × Entry)
  | [], _ => []
  | (n, e) :: t, dest => (n, rebase e (dest ++ [n])) :: rebaseChildren t dest

end

theorem sizeOf_lookup_lt {ds : List (String × EntryDelta)} {m : String} {d : EntryDelta}
    (h : List.lookup m ds = some d) : sizeOf d < sizeOf ds := by
  have h1 := List.sizeOf_lt_of_mem (mem_of_lookup_eq_some h)
  have h2 : sizeOf (m, d) = 1 + sizeOf m + sizeOf d := by simp
  omega

/-- The destination children created by the `NotFound` branches of
`EntryDelta::clear`: each copies the carried source entry to the
recorded path, so a re-scan finds it under the path's final component. -/
def newChildren (ds : List (String × EntryDelta)) : List (String × Entry) :=
  ds.filterMap fun q =>
    match q.2 with
    | .notFound e path => (path.getLast?).map fun fn => (fn, rebase e path)
    | _ => none

mutual

/-- The destination tree after `EntryDelta.clear` has run on the given
delta, as a re-scan of the destination rebuilds it: a `Same` directory
delta is skipped, a `Different` one updates every child a delta was
recorded for and gains the `NotFound` copies; a `Newer` file delta
replaces the destination file's timestamp with the source's (`cp -p`),
any other file delta leaves the destination untouched. -/
def applyDelta : EntryDelta → Entry → Entry
  | .dir _ _ diff ds, .dir p es =>
    if diff == DirCmp.Same then .dir p es
    else .dir p (applyChildren ds es ++ newChildren ds)
  | .file fd, e =>
    if fd.diff == FileCmp.Newer then .file ⟨fd.dest.path, fd.source.mtime⟩ else e
  | _, e => e
termination_by d e => (sizeOf d, 0)
decreasing_by
  apply Prod.Lex.left
  simp_arith

/-- Pointwise update of the destination's children by their recorded
deltas. -/
def applyChildren : List (String × EntryDelta) → List (String × Entry) → List (String × Entry)
  | _, [] => []
  | ds, (m, e) :: t =>
    (match hdd : List.lookup m ds with
     | some dd => (m, applyDelta dd e)
     | none => (m, e)) :: applyChildren ds t
termination_by ds es => (sizeOf ds, sizeOf es + 1)
decreasing_by
  · apply Prod.Lex.left
    exact sizeOf_lookup_lt hdd
  · apply Prod.Lex.right
    simp_arith

end

mutual

/-- A delta on which `EntryDelta::clear` performs no filesystem action:
a directory delta that `is_none`, or one all of whose recorded children
require no action; a file delta that is not `Newer`.  A `NotFound`
always copies. -/
def EntryDelta.noAction : EntryDelta → Bool
  | .dir _ _ diff ds => diff == DirCmp.Same || noActionAll ds
  | .file fd => !(fd.diff == FileCmp.Newer)
  | .notFound _ _ => false

/-- All recorded children require no action. -/
def noActionAll : List (String × EntryDelta) → Bool
  | [] => true
  | (_, d) :: t => d.noAction && noActionAll t

end

theorem noAction_of_isSame (d : EntryDelta) (h : d.isSame = true) : d.noAction = true := by
  cases d with
  | dir s t diff ds =>
    simp only [EntryDelta.isSame] at h
    simp [EntryDelta.noAction, h]
  | file fd =>
    simp only [EntryDelta.isSame] at h
    have hd : fd.diff = FileCmp.Same := eq_of_beq h
    simp [EntryDelta.noAction, hd]
  | notFound e p => simp [EntryDelta.isSame] at h

theorem sizeOf_lt_of_mem_deltas {ds : List (String × EntryDelta)} {n : String}
    {d : EntryDelta} (hm : (n, d) ∈ ds) : sizeOf d < sizeOf ds := by
  have h1 := List.sizeOf_lt_of_mem hm
  have h2 : sizeOf (n, d) = 1 + sizeOf n + sizeOf d := by simp
  omega

theorem clear_noAction_aux : ∀ k : Nat,
    (∀ d : EntryDelta, sizeOf d ≤ k → d.noAction = true → EntryDelta.clear d = .ok [])
    ∧ (∀ ds : List (String × EntryDelta), sizeOf ds ≤ k → noActionAll ds = true →
        clearEntries ds = .ok []) := by
  intro k
  induction k with
  | zero =>
    constructor
    · intro d hk
      exfalso
      cases d <;> simp_arith at hk
    · intro ds hk hna
      cases ds with
      | nil => simp [clearEntries]
      | cons hd t => exfalso; simp_arith at hk
  | succ k ih =>
    obtain ⟨ihd, ihl⟩ := ih
    constructor
    · intro d hk hna
      cases d with
      | file fd =>
        have hf : (fd.diff == FileCmp.Newer) = false := by
          simpa [EntryDelta.noAction] using hna
        simp [EntryDelta.clear, hf]
      | notFound e p => simp [EntryDelta.noAction] at hna
      | dir s t diff ds =>
        simp only [EntryDelta.noAction, Bool.or_eq_true] at hna
        by_cases hsame : (diff == DirCmp.Same) = true
        · simp [EntryDelta.clear, hsame]
        · have hs2 : (diff == DirCmp.Same) = false := by simpa using hsame
          rcases hna with hna | hna
          · exact absurd hna hsame
          · have hsz : sizeOf ds ≤ k := by
              have : sizeOf (EntryDelta.dir s t diff ds)
                  = 1 + sizeOf s + sizeOf t + sizeOf diff + sizeOf ds := by simp
              omega
            simp [EntryDelta.clear, hs2, ihl ds hsz hna]
    · intro ds hk hna
      cases ds with
      | nil => simp [clearEntries]
      | cons hd t =>
        obtain ⟨m, dd⟩ := hd
        simp only [noActionAll, Bool.and_eq_true] at hna
        obtain ⟨hdd, hrest⟩ := hna
        have hszc : sizeOf ((m, dd) :: t) = 1 + (1 + sizeOf m + sizeOf dd) + sizeOf t := by
          simp
        have hsz1 : sizeOf dd ≤ k := by omega
        have hsz2 : sizeOf t ≤ k := by omega
        simp [clearEntries, ihd dd hsz1 hdd, ihl t hsz2 hrest, Bind.bind, Except.bind]

theorem cmp_ne_notFound (e1 e2 : Entry) (acc : Nat) (e : Entry) (p : List String) :
    Entry.cmp e1 e2 acc ≠ .ok (.notFound e p) := by
  intro h
  cases e1 with
  | dir p1 es1 =>
    cases e2 with
    | dir p2 es2 =>
      rcases cmp_dir_ok_iff.mp h with ⟨ds, b, _, heq⟩
      exact EntryDelta.noConfusion heq
    | file f2 =>
      rw [cmp_dir_file] at h
      cases h
  | file f1 =>
    cases e2 with
    | dir p2 es2 =>
      rw [cmp_file_dir] at h
      cases h
    | file f2 =>
      rcases cmp_file_ok_iff.mp h with ⟨c, _, _, _, heq⟩
      exact EntryDelta.noConfusion heq

theorem lookup_rebaseChildren : ∀ (es : List (String × Entry)) (n : String)
    (dest : List String),
    List.lookup n (rebaseChildren es dest)
      = (List.lookup n es).map fun e => rebase e (dest ++ [n]) := by
  intro es n dest
  induction es with
  | nil => simp [rebaseChildren]
  | cons hd t ih =>
    obtain ⟨m, x⟩ := hd
    simp only [rebaseChildren]
    rw [List.lookup_cons, List.lookup_cons]
    cases hnm : n == m with
    | true =>
      obtain rfl : n = m := eq_of_beq hnm
      simp
    | false => simpa using ih

theorem cmp_rebase_aux : ∀ (k : Nat) (e : Entry), sizeOf e ≤ k → e.wf = true →
    ∀ (dest : List String) (acc : Nat), dest ≠ [] →
    ∃ d, Entry.cmp e (rebase e dest) acc = .ok d ∧ d.isSame = true := by
  intro k
  induction k with
  | zero =>
    intro e hk
    exfalso
    cases e <;> simp_arith at hk
  | succ k ih =>
    intro e hk hwf dest acc hne
    cases e with
    | file f =>
      simp only [Entry.wf] at hwf
      have hnef : f.path ≠ [] := by simpa using hwf
      obtain ⟨fn, hfn⟩ : ∃ fn, f.path.getLast? = some fn := by
        cases hlast : f.path.getLast? with
        | none => exact absurd (List.getLast?_eq_none_iff.mp hlast) hnef
        | some fn => exact ⟨fn, rfl⟩
      obtain ⟨dn, hdn⟩ : ∃ dn, dest.getLast? = some dn := by
        cases hlast : dest.getLast? with
        | none => exact absurd (List.getLast?_eq_none_iff.mp hlast) hne
        | some dn => exact ⟨dn, rfl⟩
      refine ⟨.file ⟨f, ⟨dest, f.mtime⟩, .Same⟩, ?_, rfl⟩
      rw [show rebase (.file f) dest = Entry.file ⟨dest, f.mtime⟩ from by simp [rebase]]
      apply cmp_file_ok_iff.mpr
      refine ⟨.Same, by simp [hfn], by simp [hdn], ?_, rfl⟩
      unfold file_cmp_modified
      simp
    | dir p es =>
      simp only [Entry.wf, Bool.and_eq_true] at hwf
      obtain ⟨hnd, hwfes⟩ := hwf
      rw [show rebase (.dir p es) dest
          = Entry.dir dest (rebaseChildren es dest) from by simp [rebase]]
      have hgo : ∀ l : List (String × Entry), (∀ pr ∈ l, pr ∈ es) →
          ∃ ds, cmpEntries acc dest (rebaseChildren es dest) l = .ok (ds, true) := by
        intro l
        induction l with
        | nil => exact fun _ => ⟨[], cmpEntries_nil⟩
        | cons hd t iht =>
          obtain ⟨n, e1⟩ := hd
          intro hsub
          have hmem : (n, e1) ∈ es := hsub _ (List.mem_cons_self ..)
          have hlook : List.lookup n es = some e1 := keysNodup_lookup hnd hmem
          obtain ⟨hfn1, hwf1⟩ := wfEntries_mem hwfes hmem
          have hsz : sizeOf e1 ≤ k := by
            have := sizeOf_lt_of_mem_entries hmem p
            omega
          obtain ⟨d1, hd1, hs1⟩ := ih e1 hsz hwf1 (dest ++ [n]) acc (by simp)
          obtain ⟨ds2, hds2⟩ := iht fun pr hpr => hsub pr (List.mem_cons_of_mem _ hpr)
          refine ⟨(n, d1) :: ds2, ?_⟩
          apply cmpEntries_cons_ok.mpr
          refine ⟨d1, ds2, true, ?_, hds2, rfl, by rw [hs1]; rfl⟩
          have hlookr : List.lookup n (rebaseChildren es dest)
              = some (rebase e1 (dest ++ [n])) := by
            rw [lookup_rebaseChildren, hlook]
            rfl
          rw [cmpChild_found hlookr]
          exact hd1
      obtain ⟨ds, hds⟩ := hgo es fun _ h => h
      refine ⟨.dir (.dir p es) (.dir dest (rebaseChildren es dest)) DirCmp.Same ds, ?_, rfl⟩
      apply cmp_dir_ok_iff.mpr
      exact ⟨ds, true, hds, by simp⟩

theorem applyChildren_cons_some {ds : List (String × EntryDelta)} {m : String}
    {dd : EntryDelta} {x : Entry} {t : List (String × Entry)}
    (hdd : List.lookup m ds = some dd) :
    applyChildren ds ((m, x) :: t) = (m, applyDelta dd x) :: applyChildren ds t := by
  simp only [applyChildren]
  split
  next dd2 hdd2 =>
    rw [hdd] at hdd2
    injection hdd2 with h2
    rw [h2]
  next hdd2 =>
    rw [hdd] at hdd2
    cases hdd2

theorem applyChildren_cons_none {ds : List (String × EntryDelta)} {m : String}
    {x : Entry} {t : List (String × Entry)}
    (hdd : List.lookup m ds = none) :
    applyChildren ds ((m, x) :: t) = (m, x) :: applyChildren ds t := by
  simp only [applyChildren]
  split
  next dd2 hdd2 =>
    rw [hdd] at hdd2
    cases hdd2
  next hdd2 => rfl

theorem lookup_applyChildren : ∀ (ds : List (String × EntryDelta))
    (es : List (String × Entry)) (n : String),
    List.lookup n (applyChildren ds es)
      = (List.lookup n es).map fun e =>
          match List.lookup n ds with
          | some dd => applyDelta dd e
          | none => e := by
  intro ds es n
  induction es with
  | nil => simp [applyChildren]
  | cons hd t ih =>
    obtain ⟨m, x⟩ := hd
    cases hdd : List.lookup m ds with
    | some dd =>
      rw [applyChildren_cons_some hdd, List.lookup_cons, List.lookup_cons]
      cases hnm : n == m with
      | true =>
        obtain rfl : n = m := eq_of_beq hnm
        simp [hdd]
      | false => simpa using ih
    | none =>
      rw [applyChildren_cons_none hdd, List.lookup_cons, List.lookup_cons]
      cases hnm : n == m with
      | true =>
        obtain rfl : n = m := eq_of_beq hnm
        simp [hdd]
      | false => simpa using ih

theorem lookup_newChildren : ∀ (ds : List (String × EntryDelta)) (n : String),
    keysNodup ds = true →
    (∀ m (dd : EntryDelta), (m, dd) ∈ ds → ∀ e p, dd = .notFound e p →
      p.getLast? = some m) →
    List.lookup n (newChildren ds)
      = match List.lookup n ds with
        | some (.notFound e p) => some (rebase e p)
        | _ => none := by
  intro ds n
  induction ds with
  | nil =>
    intro _ _
    simp [newChildren]
  | cons hd t ih =>
    obtain ⟨m, dd⟩ := hd
    intro hnd hkm
    rw [keysNodup, Bool.and_eq_true] at hnd
    obtain ⟨hnotm, hndt⟩ := hnd
    have hkmt : ∀ m2 (dd2 : EntryDelta), (m2, dd2) ∈ t → ∀ e p, dd2 = .notFound e p →
        p.getLast? = some m2 :=
      fun m2 dd2 hmem e p heq => hkm m2 dd2 (List.mem_cons_of_mem _ hmem) e p heq
    cases dd with
    | notFound e p =>
      have hlast : p.getLast? = some m := hkm m _ (List.mem_cons_self ..) e p rfl
      have hnc : newChildren ((m, .notFound e p) :: t) = (m, rebase e p) :: newChildren t := by
        simp [newChildren, List.filterMap_cons, hlast]
      rw [hnc, List.lookup_cons, List.lookup_cons]
      cases hnm : n == m with
      | true => rfl
      | false => exact ih hndt hkmt
    | dir s u diff cds =>
      have hnc : newChildren ((m, .dir s u diff cds) :: t) = newChildren t := by
        simp [newChildren, List.filterMap_cons]
      rw [hnc, ih hndt hkmt, List.lookup_cons]
      cases hnm : n == m with
      | true =>
        obtain rfl : n = m := eq_of_beq hnm
        have hnone : List.lookup n t = none := by
          rw [List.lookup_eq_none_iff]
          intro q hq
          simp only [Bool.not_eq_true', List.any_eq_false] at hnotm
          have hq2 : ¬ q.1 = n := by simpa using hnotm q hq
          simp only [bne_iff_ne, ne_eq]
          exact fun hcontra => hq2 hcontra.symm
        rw [hnone]
      | false => rfl
    | file fd =>
      have hnc : newChildren ((m, .file fd) :: t) = newChildren t := by
        simp [newChildren, List.filterMap_cons]
      rw [hnc, ih hndt hkmt, List.lookup_cons]
      cases hnm : n == m with
      | true =>
        obtain rfl : n = m := eq_of_beq hnm
        have hnone : List.lookup n t = none := by
          rw [List.lookup_eq_none_iff]
          intro q hq
          simp only [Bool.not_eq_true', List.any_eq_false] at hnotm
          have hq2 : ¬ q.1 = n := by simpa using hnotm q hq
          simp only [bne_iff_ne, ne_eq]
          exact fun hcontra => hq2 hcontra.symm
        rw [hnone]
      | false => rfl

theorem cmpEntries_keysMatch {acc : Nat} {p2 : List String} {es2 : List (String × Entry)} :
    ∀ {l : List (String × Entry)} {ds : List (String × EntryDelta)} {b : Bool},
    cmpEntries acc p2 es2 l = .ok (ds, b) → wfEntries l = true →
    ∀ m (dd : EntryDelta), (m, dd) ∈ ds → ∀ e p, dd = .notFound e p →
      p.getLast? = some m := by
  intro l
  induction l with
  | nil =>
    intro ds b h _ m dd hm
    rw [cmpEntries_nil] at h
    simp only [Except.ok.injEq, Prod.mk.injEq] at h
    rw [← h.1] at hm
    cases hm
  | cons hd t ih =>
    obtain ⟨name, e1⟩ := hd
    intro ds b h hwf m dd hm e p heq
    simp only [wfEntries, Bool.and_eq_true] at hwf
    obtain ⟨⟨hfn, _⟩, hwft⟩ := hwf
    rcases cmpEntries_cons_ok.mp h with ⟨r, ds2, b2, hr, ha, rfl, rfl⟩
    rcases List.mem_cons.mp hm with hh | ht
    · injection hh with h1 h2
      subst h1
      subst h2
      subst heq
      cases hles : List.lookup m es2 with
      | some e2 =>
        rw [cmpChild_found hles] at hr
        exact absurd hr (cmp_ne_notFound _ _ _ _ _)
      | none =>
        have hfn2 : e1.fileName = some m := by simpa using hfn
        rw [cmpChild_not_found hles hfn2] at hr
        simp only [Except.ok.injEq] at hr
        injection hr with he hp
        rw [← hp]
        exact List.getLast?_concat ..
    · exact ih ha hwft m dd ht e p heq

theorem rediff_noAction_aux : ∀ (k : Nat) (e1 : Entry), sizeOf e1 ≤ k → e1.wf = true →
    ∀ (e2 : Entry) (acc : Nat) (d : EntryDelta), Entry.cmp e1 e2 acc = .ok d →
    ∃ d2, Entry.cmp e1 (applyDelta d e2) acc = .ok d2 ∧ d2.noAction = true := by
  intro k
  induction k with
  | zero =>
    intro e1 hk
    exfalso
    cases e1 <;> simp_arith at hk
  | succ k ih =>
    intro e1 hk hwf e2 acc d h
    cases e1 with
    | file f1 =>
      cases e2 with
      | dir p2 es2 =>
        rw [cmp_file_dir] at h
        cases h
      | file f2 =>
        rcases cmp_file_ok_iff.mp h with ⟨c, h1, h2, hc, rfl⟩
        cases c with
        | Newer =>
          have happ : applyDelta (.file ⟨f1, f2, .Newer⟩) (.file f2)
              = .file ⟨f2.path, f1.mtime⟩ := by
            simp [applyDelta]
          rw [happ]
          refine ⟨.file ⟨f1, ⟨f2.path, f1.mtime⟩, .Same⟩, ?_, by simp [EntryDelta.noAction]⟩
          apply cmp_file_ok_iff.mpr
          refine ⟨.Same, h1, by simpa using h2, ?_, rfl⟩
          unfold file_cmp_modified
          simp
        | Same =>
          have happ : applyDelta (.file ⟨f1, f2, .Same⟩) (.file f2) = .file f2 := by
            simp [applyDelta]
          rw [happ]
          exact ⟨.file ⟨f1, f2, .Same⟩, h, by simp [EntryDelta.noAction]⟩
        | Older =>
          have happ : applyDelta (.file ⟨f1, f2, .Older⟩) (.file f2) = .file f2 := by
            simp [applyDelta]
          rw [happ]
          exact ⟨.file ⟨f1, f2, .Older⟩, h, by simp [EntryDelta.noAction]⟩
    | dir p1 es1 =>
      cases e2 with
      | file f2 =>
        rw [cmp_dir_file] at h
        cases h
      | dir p2 es2 =>
        simp only [Entry.wf, Bool.and_eq_true] at hwf
        obtain ⟨hnd, hwfes⟩ := hwf
        rcases cmp_dir_ok_iff.mp h with ⟨ds, b, hce, rfl⟩
        cases b with
        | true =>
          have happ : applyDelta (.dir (.dir p1 es1) (.dir p2 es2)
              (if true then DirCmp.Same else DirCmp.Different) ds) (.dir p2 es2)
              = .dir p2 es2 := by
            simp [applyDelta]
          rw [happ]
          refine ⟨_, h, ?_⟩
          simp [EntryDelta.noAction]
        | false =>
          have hkeys := cmpEntries_keys hce
          have hndds : keysNodup ds = true := by
            rw [keysNodup_of_keys_eq hkeys]
            exact hnd
          have hkm := cmpEntries_keysMatch hce hwfes
          have happ : applyDelta (.dir (.dir p1 es1) (.dir p2 es2)
              (if false then DirCmp.Same else DirCmp.Different) ds) (.dir p2 es2)
              = .dir p2 (applyChildren ds es2 ++ newChildren ds) := by
            simp [applyDelta]
          rw [happ]
          have hgo : ∀ l : List (String × Entry), (∀ pr ∈ l, pr ∈ es1) →
              ∃ ds2 b2, cmpEntries acc p2 (applyChildren ds es2 ++ newChildren ds) l
                  = .ok (ds2, b2) ∧ noActionAll ds2 = true := by
            intro l
            induction l with
            | nil => exact fun _ => ⟨[], true, cmpEntries_nil, rfl⟩
            | cons hd t iht =>
              obtain ⟨n, e1c⟩ := hd
              intro hsub
              have hmem : (n, e1c) ∈ es1 := hsub _ (List.mem_cons_self ..)
              obtain ⟨hfn1, hwf1⟩ := wfEntries_mem hwfes hmem
              have hsz : sizeOf e1c ≤ k := by
                have := sizeOf_lt_of_mem_entries hmem p1
                omega
              obtain ⟨r, hr, hlds⟩ := cmpEntries_lookup hce hnd hmem
              obtain ⟨ds2, b2, hds2, hna2⟩ :=
                iht fun pr hpr => hsub pr (List.mem_cons_of_mem _ hpr)
              cases hles : List.lookup n es2 with
              | some e2c =>
                rw [cmpChild_found hles] at hr
                obtain ⟨d2c, hd2c, hna2c⟩ := ih e1c hsz hwf1 e2c acc r hr
                have hlook2 : List.lookup n (applyChildren ds es2 ++ newChildren ds)
                    = some (applyDelta r e2c) := by
                  rw [List.lookup_append, lookup_applyChildren, hles, hlds]
                  rfl
                refine ⟨(n, d2c) :: ds2, d2c.isSame && b2, ?_, ?_⟩
                · apply cmpEntries_cons_ok.mpr
                  exact ⟨d2c, ds2, b2, by rw [cmpChild_found hlook2]; exact hd2c,
                    hds2, rfl, rfl⟩
                · simp [noActionAll, hna2c, hna2]
              | none =>
                have hfn2 : e1c.fileName = some n := hfn1
                rw [cmpChild_not_found hles hfn2] at hr
                have hreq : r = .notFound e1c (p2 ++ [n]) := by
                  injection hr with h3
                  exact h3.symm
                subst hreq
                have hlook2 : List.lookup n (applyChildren ds es2 ++ newChildren ds)
                    = some (rebase e1c (p2 ++ [n])) := by
                  rw [List.lookup_append, lookup_applyChildren, hles,
                    lookup_newChildren ds n hndds hkm, hlds]
                  rfl
                obtain ⟨dS, hdS, hsS⟩ :=
                  cmp_rebase_aux k e1c hsz hwf1 (p2 ++ [n]) acc (by simp)
                refine ⟨(n, dS) :: ds2, dS.isSame && b2, ?_, ?_⟩
                · apply cmpEntries_cons_ok.mpr
                  exact ⟨dS, ds2, b2, by rw [cmpChild_found hlook2]; exact hdS,
                    hds2, rfl, rfl⟩
                · simp [noActionAll, noAction_of_isSame dS hsS, hna2]
          obtain ⟨ds2, b2, hds2, hna2⟩ := hgo es1 fun _ hh => hh
          refine ⟨.dir (.dir p1 es1) (.dir p2 (applyChildren ds es2 ++ newChildren ds))
            (if b2 then DirCmp.Same else DirCmp.Different) ds2, ?_, ?_⟩
          · exact cmp_dir_ok_iff.mpr ⟨ds2, b2, hds2, rfl⟩
          · simp [EntryDelta.noAction, hna2]

/-- C7 counterexample: let the source hold `f` with modification time 1
and the destination hold `f` with modification time 100, with tolerance
2.  The diff records `f` as `Older`, `apply` succeeds while performing
no action, the rebuilt destination equals the original destination, and
re-running the diff yields the same delta again: aggregate status
`Different` with one recorded child, not an empty delta. -/
theorem rediff_older_delta_not_empty :
    Entry.cmp (.dir ["a"] [("f", .file ⟨["a", "f"], 1⟩)])
        (.dir ["b"] [("f", .file ⟨["b", "f"], 100⟩)]) 2
      = .ok (.dir (.dir ["a"] [("f", .file ⟨["a", "f"], 1⟩)])
          (.dir ["b"] [("f", .file ⟨["b", "f"], 100⟩)]) DirCmp.Different
          [("f", .file ⟨⟨["a", "f"], 1⟩, ⟨["b", "f"], 100⟩, FileCmp.Older⟩)])
    ∧ EntryDelta.clear (.dir (.dir ["a"] [("f", .file ⟨["a", "f"], 1⟩)])
          (.dir ["b"] [("f", .file ⟨["b", "f"], 100⟩)]) DirCmp.Different
          [("f", .file ⟨⟨["a", "f"], 1⟩, ⟨["b", "f"], 100⟩, FileCmp.Older⟩)]) = .ok []
    ∧ applyDelta (.dir (.dir ["a"] [("f", .file ⟨["a", "f"], 1⟩)])
          (.dir ["b"] [("f", .file ⟨["b", "f"], 100⟩)]) DirCmp.Different
          [("f", .file ⟨⟨["a", "f"], 1⟩, ⟨["b", "f"], 100⟩, FileCmp.Older⟩)])
        (.dir ["b"] [("f", .file ⟨["b", "f"], 100⟩)])
      = .dir ["b"] [("f", .file ⟨["b", "f"], 100⟩)]
    ∧ (Entry.cmp (.dir ["a"] [("f", .file ⟨["a", "f"], 1⟩)])
        (.dir ["b"] [("f", .file ⟨["b", "f"], 100⟩)]) 2).map
        (fun d => (d.dirDiff, d.childDeltas.length))
      = .ok (some DirCmp.Different, 1) := by
  have h1 : Entry.cmp (.file ⟨["a", "f"], 1⟩) (.file ⟨["b", "f"], 100⟩) 2
      = .ok (.file ⟨⟨["a", "f"], 1⟩, ⟨["b", "f"], 100⟩, FileCmp.Older⟩) :=
    cmp_file_ok_iff.mpr ⟨.Older, by rfl, by rfl, by rfl, rfl⟩
  have h2 : cmpEntries 2 ["b"] [("f", .file ⟨["b", "f"], 100⟩)]
        [("f", .file ⟨["a", "f"], 1⟩)]
      = .ok ([("f", .file ⟨⟨["a", "f"], 1⟩, ⟨["b", "f"], 100⟩, FileCmp.Older⟩)], false) :=
    cmpEntries_cons_ok.mpr ⟨_, [], true,
      by rw [cmpChild_found (by rfl)]; exact h1, cmpEntries_nil, rfl, rfl⟩
  have h3 : Entry.cmp (.dir ["a"] [("f", .file ⟨["a", "f"], 1⟩)])
        (.dir ["b"] [("f", .file ⟨["b", "f"], 100⟩)]) 2
      = .ok (.dir (.dir ["a"] [("f", .file ⟨["a", "f"], 1⟩)])
          (.dir ["b"] [("f", .file ⟨["b", "f"], 100⟩)]) DirCmp.Different
          [("f", .file ⟨⟨["a", "f"], 1⟩, ⟨["b", "f"], 100⟩, FileCmp.Older⟩)]) :=
    cmp_dir_ok_iff.mpr ⟨_, false, h2, rfl⟩
  refine ⟨h3, ?_, ?_, ?_⟩
  · have hcf : EntryDelta.clear
        (.file ⟨⟨["a", "f"], 1⟩, ⟨["b", "f"], 100⟩, FileCmp.Older⟩) = .ok [] := by
      simp only [EntryDelta.clear]
      rfl
    simp only [EntryDelta.clear, clearEntries, hcf]
    rfl
  · have ha2 : applyDelta (.file ⟨⟨["a", "f"], 1⟩, ⟨["b", "f"], 100⟩, FileCmp.Older⟩)
        (.file ⟨["b", "f"], 100⟩) = .file ⟨["b", "f"], 100⟩ := by
      simp only [applyDelta]
      rfl
    have htop : applyDelta (.dir (.dir ["a"] [("f", .file ⟨["a", "f"], 1⟩)])
          (.dir ["b"] [("f", .file ⟨["b", "f"], 100⟩)]) DirCmp.Different
          [("f", .file ⟨⟨["a", "f"], 1⟩, ⟨["b", "f"], 100⟩, FileCmp.Older⟩)])
        (.dir ["b"] [("f", .file ⟨["b", "f"], 100⟩)])
        = .dir ["b"]
            (applyChildren [("f", .file ⟨⟨["a", "f"], 1⟩, ⟨["b", "f"], 100⟩, FileCmp.Older⟩)]
              [("f", .file ⟨["b", "f"], 100⟩)]
            ++ newChildren
              [("f", .file ⟨⟨["a", "f"], 1⟩, ⟨["b", "f"], 100⟩, FileCmp.Older⟩)]) := by
      simp only [applyDelta]
      rfl
    have hnil : applyChildren
        [("f", .file ⟨⟨["a", "f"], 1⟩, ⟨["b", "f"], 100⟩, FileCmp.Older⟩)]
        ([] : List (String × Entry)) = [] := by
      simp only [applyChildren]
    rw [htop, applyChildren_cons_some (by rfl), ha2, hnil]
    rfl
  · rw [h3]
    rfl

/-- C7 (amended): once `apply(diff(A,B,tol))` has succeeded, re-running
the diff of a well-formed source tree `A` against the rebuilt
destination succeeds, and the resulting delta requires no further
action: reconciling it performs no copy at all.  The second delta is
not necessarily empty — source files strictly older than their
destination counterparts are reported `Older` again on every run — but
`NotFound` and `Newer` differences are gone. -/
theorem rediff_after_apply_no_action {p1 p2 : List String}
    {es1 es2 : List (String × Entry)} {acc : Nat} {d : EntryDelta}
    (hwf : Entry.wf (.dir p1 es1) = true)
    (h : Entry.cmp (.dir p1 es1) (.dir p2 es2) acc = .ok d) :
    ∃ d2, Entry.cmp (.dir p1 es1) (applyDelta d (.dir p2 es2)) acc = .ok d2
      ∧ d2.noAction = true ∧ EntryDelta.clear d2 = .ok [] := by
  obtain ⟨d2, h2, hna⟩ := rediff_noAction_aux (sizeOf (Entry.dir p1 es1))
    (.dir p1 es1) le_rfl hwf (.dir p2 es2) acc d h
  exact ⟨d2, h2, hna, (clear_noAction_aux (sizeOf d2)).1 d2 le_rfl hna⟩

/-- C7 witness: the amended idempotence evaluated on a source holding
one file missing from the destination. -/
theorem rediff_after_apply_no_action_witness :
    ∃ d2, Entry.cmp (.dir ["a"] [("f", .file ⟨["a", "f"], 10⟩)])
        (applyDelta (.dir (.dir ["a"] [("f", .file ⟨["a", "f"], 10⟩)]) (.dir ["b"] [])
            DirCmp.Different
            [("f", .notFound (.file ⟨["a", "f"], 10⟩) ["b", "f"])])
          (.dir ["b"] [])) 2 = .ok d2
      ∧ d2.noAction = true ∧ EntryDelta.clear d2 = .ok [] :=
  @rediff_after_apply_no_action ["a"] ["b"] [("f", .file ⟨["a", "f"], 10⟩)] [] 2
    (.dir (.dir ["a"] [("f", .file ⟨["a", "f"], 10⟩)]) (.dir ["b"] []) DirCmp.Different
      [("f", .notFound (.file ⟨["a", "f"], 10⟩) ["b", "f"])])
    (by simp only [Entry.wf, wfEntries]; rfl)
    (by
      have hnf : List.lookup "f" ([] : List (String × Entry)) = none := rfl
      have hfn : (Entry.file ⟨["a", "f"], 10⟩).fileName = some "f" := rfl
      have h2 : cmpEntries 2 ["b"] [] [("f", .file ⟨["a", "f"], 10⟩)]
          = .ok ([("f", .notFound (.file ⟨["a", "f"], 10⟩) ["b", "f"])], false) :=
        cmpEntries_cons_ok.mpr ⟨_, [], true,
          by rw [cmpChild_not_found hnf hfn]; rfl, cmpEntries_nil, rfl, rfl⟩
      exact cmp_dir_ok_iff.mpr ⟨_, false, h2, rfl⟩)
